import Mathlib

/-!
Shallow embedding of `src/Encode_Image.py` (StyleAligned_DiffModels).

The repository offers four latent-blending strategies (linear weighted
average, weighted slerp, barycentric and Gaussian-RBF interpolation) plus
thin encoding wrappers around an external VAE.  We embed:

* real tensors along the slerp-relevant last axis as `List (List ℝ)`
  (a list of last-axis fibers), since `weighted_slerp` takes norms and
  dot products with `dim=-1`;
* flat latents for the elementwise linear/barycentric blends as `List ℝ`;
* shaped tensors for the RBF blend as `Tensor` (shape plus row-major
  data), because `torch.stack` / `torch.einsum` change the shape there;
* the VAE of the pipeline object only through its numeric precision
  (`VaeDType`), the single piece of shared mutable state the functions
  touch, passed in and returned explicitly;
* Python `assert` failures as `Except.error` of an `InvalidArgument`
  value, raised before any tensor computation, mirroring source order
  (length check first, then the `np.isclose` weight-sum check);
* the external `model.vae.encode` collaborator as an abstract
  `encode : α → latent` parameter;
* IEEE non-finite results (NaN from the unguarded divisions by
  `sin(omega)` or by a zero norm in `weighted_slerp`) as `none` of an
  `Option`: a `some` value is a finite tensor computed by the stated
  formula, `none` records that the computation divided by zero.
-/

namespace StyleAligned

/-- Error taxonomy of the spec: every precondition `assert` in the source
is an `InvalidArgument` failure, tagged by which condition failed. -/
inductive InvalidArgument
  | lengthMismatch
  | weightSum
deriving DecidableEq

/-- Numeric precision of the pipeline VAE, the shared mutable state the
`images_encoding*` functions set via `model.vae.to(dtype=...)`. -/
inductive VaeDType
  | f16
  | f32
deriving DecidableEq

noncomputable section
open scoped Classical

/-- Default-tolerance `np.isclose(a, b)`: `|a - b| <= atol + rtol * |b|`
with `atol = 1e-8` and `rtol = 1e-5`. -/
def npIsClose (a b : ℝ) : Prop := |a - b| ≤ 1 / 10 ^ 8 + 1 / 10 ^ 5 * |b|

/-- Elementwise `v * w` (tensor times scalar weight, source order
`latent_img * weight`). -/
def scaleVec (v : List ℝ) (w : ℝ) : List ℝ := v.map (fun x => x * w)

/-- Elementwise tensor addition (`+=` on equal-shaped tensors). -/
def addVec (x y : List ℝ) : List ℝ := List.zipWith (fun a b => a + b) x y

/-- The accumulation loop of `images_encoding`: `blended_latent_img`
starts as `None`; the first latent initializes it with
`latent_img * weight`, later ones are added with `+=`. -/
def linearAccum (pairs : List (List ℝ × ℝ)) : Option (List ℝ) :=
  pairs.foldl
    (fun acc p =>
      match acc with
      | none => some (scaleVec p.1 p.2)
      | some b => some (addVec b (scaleVec p.1 p.2)))
    none

/-- `images_encoding` (linear weighted average).  The two `assert`s run
before the VAE is touched; on success the VAE is set to float32 for
encoding and left at float16 on return. -/
def images_encoding {α : Type} (dtype : VaeDType) (encode : α → List ℝ)
    (images : List α) (ws : List ℝ) :
    VaeDType × Except InvalidArgument (Option (List ℝ)) :=
  if images.length = ws.length then
    if npIsClose ws.sum 1 then
      (VaeDType.f16, Except.ok (linearAccum ((images.map encode).zip ws)))
    else (dtype, Except.error InvalidArgument.weightSum)
  else (dtype, Except.error InvalidArgument.lengthMismatch)

/-- `torch.norm(v, dim=-1)` on one last-axis fiber: the Euclidean norm. -/
def l2norm (r : List ℝ) : ℝ := Real.sqrt ((r.map (fun x => x ^ 2)).sum)

/-- The source's `dot_product`: elementwise product of the
unit-normalized fibers, summed over the last axis. -/
def fiberDot (r0 r1 : List ℝ) : ℝ :=
  (List.zipWith (fun a b => a * b)
    (r0.map (fun x => x / l2norm r0)) (r1.map (fun x => x / l2norm r1))).sum

/-- One last-axis fiber of `weighted_slerp(weight, v0, v1)`:
normalize both fibers, take the dot product, `omega = acos(dot)`,
and return `sin((1-t)*omega)/sin(omega) * v0 + sin(t*omega)/sin(omega) * v1`
on the original (non-normalized) fibers.  The divisions are unguarded in
the source; a zero divisor (zero norm, or `sin(omega) = 0` on colinear
fibers) yields IEEE non-finite values, modelled as `none`. -/
def fiberSlerp (t : ℝ) (r0 r1 : List ℝ) : Option (List ℝ) :=
  if l2norm r0 = 0 ∨ l2norm r1 = 0 then none
  else if Real.sin (Real.arccos (fiberDot r0 r1)) = 0 then none
  else
    some (List.zipWith
      (fun a b =>
        Real.sin ((1 - t) * Real.arccos (fiberDot r0 r1))
            / Real.sin (Real.arccos (fiberDot r0 r1)) * a
          + Real.sin (t * Real.arccos (fiberDot r0 r1))
            / Real.sin (Real.arccos (fiberDot r0 r1)) * b) r0 r1)

/-- `weighted_slerp` applied fiberwise along the last axis: `none` as
soon as any fiber divides by zero (the tensor then contains NaN). -/
def slerpFibers (t : ℝ) : List (List ℝ) → List (List ℝ) → Option (List (List ℝ))
  | r0 :: v0, r1 :: v1 =>
    match fiberSlerp t r0 r1, slerpFibers t v0 v1 with
    | some r, some v => some (r :: v)
    | _, _ => none
  | _, _ => some []

/-- `weighted_slerp(weight, v0, v1)` on fiber tensors. -/
def weighted_slerp (t : ℝ) (v0 v1 : List (List ℝ)) : Option (List (List ℝ)) :=
  slerpFibers t v0 v1

/-- `latent * weight` on a fiber tensor. -/
def scaleFibers (v : List (List ℝ)) (w : ℝ) : List (List ℝ) :=
  v.map (fun r => scaleVec r w)

/-- The loop of `images_encoding_slerp`: the outer `Option` is the
`None`-initialized Python accumulator, the inner `Option` marks NaN
results propagating through `weighted_slerp`. -/
def slerpLoop : Option (Option (List (List ℝ))) → List (List (List ℝ) × ℝ) →
    Option (Option (List (List ℝ)))
  | acc, [] => acc
  | none, p :: rest => slerpLoop (some (some (scaleFibers p.1 p.2))) rest
  | some b, p :: rest =>
    slerpLoop (some (b.bind (fun a => weighted_slerp p.2 a p.1))) rest

/-- `images_encoding_slerp`: validate, then fold the encoded latents
through `weighted_slerp`, starting from the first latent scaled by its
own weight. -/
def images_encoding_slerp {α : Type} (dtype : VaeDType)
    (encode : α → List (List ℝ)) (images : List α) (ws : List ℝ) :
    VaeDType × Except InvalidArgument (Option (Option (List (List ℝ)))) :=
  if images.length = ws.length then
    if npIsClose ws.sum 1 then
      (VaeDType.f16, Except.ok (slerpLoop none ((images.map encode).zip ws)))
    else (dtype, Except.error InvalidArgument.weightSum)
  else (dtype, Except.error InvalidArgument.lengthMismatch)

/-- `barycentric_interpolation`: validate, then accumulate each
`latent * weight` onto `torch.zeros_like(latents[0])`.  (`latents[0]` is
only reached on inputs that pass validation, hence nonempty lists;
`headI` returns the same first element there.) -/
def barycentric_interpolation (latents : List (List ℝ)) (ws : List ℝ) :
    Except InvalidArgument (List ℝ) :=
  if latents.length = ws.length then
    if npIsClose ws.sum 1 then
      Except.ok ((latents.zip ws).foldl
        (fun acc p => addVec acc (scaleVec p.1 p.2))
        (List.replicate latents.headI.length 0))
    else Except.error InvalidArgument.weightSum
  else Except.error InvalidArgument.lengthMismatch

/-- `images_encoding_barycentric`: validate, encode, delegate to
`barycentric_interpolation` (whose own asserts then pass), leave the VAE
at float16. -/
def images_encoding_barycentric {α : Type} (dtype : VaeDType)
    (encode : α → List ℝ) (images : List α) (ws : List ℝ) :
    VaeDType × Except InvalidArgument (List ℝ) :=
  if images.length = ws.length then
    if npIsClose ws.sum 1 then
      (VaeDType.f16, barycentric_interpolation (images.map encode) ws)
    else (dtype, Except.error InvalidArgument.weightSum)
  else (dtype, Except.error InvalidArgument.lengthMismatch)

/-- A shaped tensor: `shape` together with row-major `data`, the view the
RBF blend manipulates through `torch.stack`, `view` and `einsum`. -/
structure Tensor where
  shape : List ℕ
  data : List ℝ

instance : Inhabited Tensor := ⟨⟨[], []⟩⟩

/-- `torch.cdist(.., p=2)` entry: Euclidean distance of two flattened
latents. -/
def l2dist (x y : List ℝ) : ℝ :=
  Real.sqrt (((x.zip y).map (fun p => (p.1 - p.2) ^ 2)).sum)

/-- Pairwise distance matrix of the flattened latents
(`latent_stack.view(N, -1)` lists exactly the per-latent data rows). -/
def cdist (rows : List (List ℝ)) : List (List ℝ) :=
  rows.map (fun xi => rows.map (fun xj => l2dist xi xj))

/-- `gaussian_rbf(distances, epsilon) = exp(-(epsilon * distances) ** 2)`
on one entry. -/
def gaussian_rbf (d eps : ℝ) : ℝ := Real.exp (-(eps * d) ^ 2)

/-- Row normalization `rbf_weights / rbf_weights.sum(dim=1, keepdim=True)`. -/
def rowNormalize (M : List (List ℝ)) : List (List ℝ) :=
  M.map (fun row => row.map (fun x => x / row.sum))

/-- Sum of a list of equal-length vectors. -/
def sumVecs : List (List ℝ) → List ℝ
  | [] => []
  | v :: vs => vs.foldl addVec v

/-- `torch.einsum('ij,i...->j...', K, stack)` on the per-latent data
rows: the j-th output block is `sum_i K[i][j] * rows[i]`; the j index
(the second index of `K`) stays free, so there are as many output blocks
as `K` has columns. -/
def einsumContract (K rows : List (List ℝ)) : List (List ℝ) :=
  (List.range K.headI.length).map
    (fun j => sumVecs (List.zipWith (fun Ki Li => scaleVec Li (Ki.getD j 0)) K rows))

/-- `rbf_interpolation`: validate, stack and flatten the latents, build
the Gaussian kernel on pairwise distances, row-normalize it, and
contract its first index against the stack.  The einsum output keeps the
free j index, so its shape is the column count of the kernel prepended
to the per-item shape of the stack. -/
def rbf_interpolation (latents : List Tensor) (ws : List ℝ) (eps : ℝ) :
    Except InvalidArgument Tensor :=
  if latents.length = ws.length then
    if npIsClose ws.sum 1 then
      Except.ok
        (let rows := latents.map Tensor.data
         let K := rowNormalize
           ((cdist rows).map (fun row => row.map (fun d => gaussian_rbf d eps)))
         Tensor.mk (K.headI.length :: latents.headI.shape)
           (einsumContract K rows).flatten)
    else Except.error InvalidArgument.weightSum
  else Except.error InvalidArgument.lengthMismatch

/-- `images_encoding_rbf`: validate, encode, delegate to
`rbf_interpolation`, leave the VAE at float16. -/
def images_encoding_rbf {α : Type} (dtype : VaeDType) (encode : α → Tensor)
    (images : List α) (ws : List ℝ) (eps : ℝ) :
    VaeDType × Except InvalidArgument Tensor :=
  if images.length = ws.length then
    if npIsClose ws.sum 1 then
      (VaeDType.f16, rbf_interpolation (images.map encode) ws eps)
    else (dtype, Except.error InvalidArgument.weightSum)
  else (dtype, Except.error InvalidArgument.lengthMismatch)

/-- Modelled from the claim wording for the two-vector weighted slerp:
per last-axis fiber, the angle `omega` is computed from unit-normalized
copies of the two fibers, and the result
`sin((1-t)*omega)/sin(omega) * v0 + sin(t*omega)/sin(omega) * v1` is
formed on the original, non-normalized fibers. -/
def slerpSpecFormula (t : ℝ) (v0 v1 : List (List ℝ)) : List (List ℝ) :=
  List.zipWith
    (fun r0 r1 =>
      List.zipWith
        (fun a b =>
          Real.sin ((1 - t) * Real.arccos (fiberDot r0 r1))
              / Real.sin (Real.arccos (fiberDot r0 r1)) * a
            + Real.sin (t * Real.arccos (fiberDot r0 r1))
              / Real.sin (Real.arccos (fiberDot r0 r1)) * b) r0 r1)
    v0 v1

/-- Shape of the payload of a successful RBF blend (empty on error). -/
def okShape (r : Except InvalidArgument Tensor) : List ℕ :=
  match r with
  | Except.ok t => t.shape
  | Except.error _ => []

/-! ## Helper lemmas -/

theorem npIsClose_refl (a : ℝ) : npIsClose a a := by
  simp only [npIsClose, sub_self, abs_zero]
  positivity

theorem l2norm_one_zero : l2norm [(1 : ℝ), 0] = 1 := by
  norm_num [l2norm]

theorem l2norm_zero_one : l2norm [(0 : ℝ), 1] = 1 := by
  norm_num [l2norm]

/-! ## C1: slerp on identical latents -/

/-- C1: the claim says `weighted_slerp` on two identical latents returns
`v0` through a colinear (near-parallel) linear-interpolation fallback and
never produces NaN.  The source has no such fallback: on identical
latents the dot product of the normalized fibers is `1`,
`omega = arccos 1 = 0`, `sin omega = 0`, and the unguarded division
`sin((1-t)*0) / 0 = 0 / 0` produces NaN (modelled as `none`) for every
weight `t`.  This evaluates the code at the failing input. -/
theorem slerp_identical_latents_nan (t : ℝ) :
    weighted_slerp t [[(1 : ℝ)]] [[(1 : ℝ)]] = none := by
  have h1 : l2norm [(1 : ℝ)] = 1 := by norm_num [l2norm]
  have hdot : fiberDot [(1 : ℝ)] [(1 : ℝ)] = 1 := by
    norm_num [fiberDot, h1]
  have hfib : fiberSlerp t [(1 : ℝ)] [(1 : ℝ)] = none := by
    rw [fiberSlerp, if_neg (by rw [h1]; norm_num), if_pos]
    rw [hdot, Real.arccos_one, Real.sin_zero]
  simp [weighted_slerp, slerpFibers, hfib]

/-! ## C2: the weights argument does not influence the RBF blend -/

/-- C2: for any two weight vectors that both pass validation, the RBF
blend gives the same result: the weights are only inspected by the
precondition asserts, never by the kernel computation. -/
theorem rbf_ignores_weights (latents : List Tensor) (w w' : List ℝ) (eps : ℝ)
    (hl : latents.length = w.length) (hl' : latents.length = w'.length)
    (hs : npIsClose w.sum 1) (hs' : npIsClose w'.sum 1) :
    rbf_interpolation latents w eps = rbf_interpolation latents w' eps := by
  rw [rbf_interpolation, rbf_interpolation, if_pos hl, if_pos hl',
    if_pos hs, if_pos hs']

/-- Witness for C2 at two concrete, different weight vectors. -/
theorem rbf_ignores_weights_witness :
    rbf_interpolation [Tensor.mk [1] [(2 : ℝ)], Tensor.mk [1] [(3 : ℝ)]]
        [1 / 2, 1 / 2] 1
      = rbf_interpolation [Tensor.mk [1] [(2 : ℝ)], Tensor.mk [1] [(3 : ℝ)]]
        [1 / 4, 3 / 4] 1 := by
  apply rbf_ignores_weights
  · rfl
  · rfl
  · norm_num [npIsClose]
  · norm_num [npIsClose]

/-! ## C9: empty inputs fail with InvalidArgument -/

/-- C9: every blend operation called on empty latents and empty weights
fails with an `InvalidArgument` error (the weight-sum assert: the empty
sum `0` is not within `np.isclose` tolerance of `1`), raised by the
validation before any computation, for every encoder, VAE state and
epsilon. -/
theorem empty_inputs_invalid_argument {α : Type} (dtype : VaeDType)
    (encL : α → List ℝ) (encS : α → List (List ℝ)) (encT : α → Tensor)
    (eps : ℝ) :
    (images_encoding dtype encL ([] : List α) []).snd
        = Except.error InvalidArgument.weightSum
    ∧ (images_encoding_slerp dtype encS ([] : List α) []).snd
        = Except.error InvalidArgument.weightSum
    ∧ (images_encoding_barycentric dtype encL ([] : List α) []).snd
        = Except.error InvalidArgument.weightSum
    ∧ (images_encoding_rbf dtype encT ([] : List α) [] eps).snd
        = Except.error InvalidArgument.weightSum
    ∧ barycentric_interpolation [] [] = Except.error InvalidArgument.weightSum
    ∧ rbf_interpolation [] [] eps = Except.error InvalidArgument.weightSum := by
  have hnc : ¬ npIsClose 0 1 := by
    norm_num [npIsClose]
  refine ⟨?_, ?_, ?_, ?_, ?_, ?_⟩ <;>
    simp [images_encoding, images_encoding_slerp, images_encoding_barycentric,
      images_encoding_rbf, barycentric_interpolation, rbf_interpolation, hnc]

/-! ## C3: validation condition of every blend -/

/-- C3 counterexample: the claim fixes the validation tolerance at
`1e-6`, but the source uses `np.isclose` with its default tolerances.
A single latent with weight `1 + 5e-6` has `|sum - 1| = 5e-6 > 1e-6`, so
the claim predicts an `InvalidArgument` failure, yet the RBF blend
accepts it and computes a result. -/
theorem blend_validation_tolerance_cex :
    (rbf_interpolation [Tensor.mk [1] [(0 : ℝ)]] [1 + 1 / 200000] 1).isOk = true
    ∧ |([1 + 1 / 200000] : List ℝ).sum - 1| > 1 / 10 ^ 6 := by
  constructor
  · have h2 : npIsClose (([1 + 1 / 200000] : List ℝ).sum) 1 := by
      norm_num [npIsClose, abs_le]
    rw [rbf_interpolation, if_pos (by simp), if_pos h2]
    rfl
  · rw [show ([1 + 1 / 200000] : List ℝ).sum - 1 = 1 / 200000 by norm_num,
      abs_of_nonneg (by norm_num)]
    norm_num

/-- C3 (amended): each blend operation fails with `InvalidArgument`
before any tensor computation if and only if the latent and weight
counts differ or the weight sum fails the `np.isclose` check with numpy
default tolerances, `|sum - 1| <= 1e-8 + 1e-5 * |1|` (not the claim's
`1e-6`); when both conditions hold it proceeds and returns a result. -/
theorem blend_validation_iff {α : Type} (dtype : VaeDType)
    (encL : α → List ℝ) (encS : α → List (List ℝ)) :
    (∀ (images : List α) (ws : List ℝ),
      (images_encoding dtype encL images ws).snd.isOk = false
        ↔ images.length ≠ ws.length ∨ ¬ npIsClose ws.sum 1)
    ∧ (∀ (images : List α) (ws : List ℝ),
      (images_encoding_slerp dtype encS images ws).snd.isOk = false
        ↔ images.length ≠ ws.length ∨ ¬ npIsClose ws.sum 1)
    ∧ (∀ (latents : List (List ℝ)) (ws : List ℝ),
      (barycentric_interpolation latents ws).isOk = false
        ↔ latents.length ≠ ws.length ∨ ¬ npIsClose ws.sum 1)
    ∧ (∀ (latents : List Tensor) (ws : List ℝ) (eps : ℝ),
      (rbf_interpolation latents ws eps).isOk = false
        ↔ latents.length ≠ ws.length ∨ ¬ npIsClose ws.sum 1) := by
  refine ⟨fun l w => ?_, fun l w => ?_, fun l w => ?_, fun l w e => ?_⟩ <;>
    (by_cases h1 : l.length = w.length <;> by_cases h2 : npIsClose w.sum 1 <;>
      simp [images_encoding, images_encoding_slerp, barycentric_interpolation,
        rbf_interpolation, h1, h2, Except.isOk, Except.toBool])

/-! ## C8: effect of the blends on the VAE precision state -/

/-- C8 counterexample: a VAE entering in float32 does not leave in the
state it had on entry: after a successful linear blend it is left at
float16 by the unconditional trailing `model.vae.to(dtype=float16)`. -/
theorem encoding_dtype_cex :
    (images_encoding VaeDType.f32 (fun l : List ℝ => l) [[(1 : ℝ)]] [1]).fst
      ≠ VaeDType.f32 := by
  have h2 : npIsClose (([1] : List ℝ).sum) 1 := by norm_num [npIsClose]
  rw [images_encoding, if_pos (by simp), if_pos h2]
  simp

/-- C8 (amended): the `images_encoding*` functions are not state-frame
preserving on the model: whenever validation passes, every one of them
leaves the VAE at float16 regardless of the precision it had on entry
(so the entry state is preserved only if it already was float16); only
when validation fails (the asserts fire before the VAE is touched) is
the entry state left intact. -/
theorem encoding_leaves_vae_f16 {α : Type} (dtype : VaeDType)
    (encL : α → List ℝ) (encS : α → List (List ℝ)) (encT : α → Tensor)
    (images : List α) (ws : List ℝ) (eps : ℝ) :
    (images.length = ws.length ∧ npIsClose ws.sum 1 →
      (images_encoding dtype encL images ws).fst = VaeDType.f16
      ∧ (images_encoding_slerp dtype encS images ws).fst = VaeDType.f16
      ∧ (images_encoding_barycentric dtype encL images ws).fst = VaeDType.f16
      ∧ (images_encoding_rbf dtype encT images ws eps).fst = VaeDType.f16)
    ∧ (¬ (images.length = ws.length ∧ npIsClose ws.sum 1) →
      (images_encoding dtype encL images ws).fst = dtype
      ∧ (images_encoding_slerp dtype encS images ws).fst = dtype
      ∧ (images_encoding_barycentric dtype encL images ws).fst = dtype
      ∧ (images_encoding_rbf dtype encT images ws eps).fst = dtype) := by
  by_cases h1 : images.length = ws.length <;>
    by_cases h2 : npIsClose ws.sum 1 <;>
    simp [images_encoding, images_encoding_slerp, images_encoding_barycentric,
      images_encoding_rbf, h1, h2]

/-- Witness for C8 at a concrete valid input entering at float32. -/
theorem encoding_leaves_vae_f16_witness :
    (images_encoding VaeDType.f32 (fun l : List ℝ => l) [[(1 : ℝ)]] [1]).fst
      = VaeDType.f16 := by
  exact ((encoding_leaves_vae_f16 VaeDType.f32 (fun l : List ℝ => l)
      (fun l : List ℝ => [l]) (fun _ : List ℝ => Tensor.mk [] [])
      [[(1 : ℝ)]] [1] 1).1 ⟨rfl, by norm_num [npIsClose]⟩).1

/-! ## C5: linear blend equals barycentric blend -/

theorem addVec_zero (v : List ℝ) : addVec (List.replicate v.length 0) v = v := by
  induction v with
  | nil => rfl
  | cons a l ih =>
    simp only [List.length_cons, List.replicate_succ, addVec,
      List.zipWith_cons_cons, zero_add]
    simp only [addVec] at ih
    rw [ih]

theorem linearAccum_cons (p : List ℝ × ℝ) (rest : List (List ℝ × ℝ)) :
    linearAccum (p :: rest)
      = some (rest.foldl (fun acc q => addVec acc (scaleVec q.1 q.2))
          (scaleVec p.1 p.2)) := by
  have h : ∀ (l : List (List ℝ × ℝ)) (b : List ℝ),
      List.foldl
        (fun acc q =>
          match acc with
          | none => some (scaleVec q.1 q.2)
          | some c => some (addVec c (scaleVec q.1 q.2)))
        (some b) l
      = some (l.foldl (fun acc q => addVec acc (scaleVec q.1 q.2)) b) := by
    intro l
    induction l with
    | nil => intro b; rfl
    | cons q l ih => intro b; rw [List.foldl_cons, List.foldl_cons]; exact ih _
  rw [linearAccum, List.foldl_cons]
  exact h rest _

/-- C5: on every valid, nonempty, equal-shaped input the linear blend of
`images_encoding` (None-initialized running sum) and the barycentric
blend (zero-initialized accumulator) return exactly the same blended
latent; in the real-number model the agreement is exact, which implies
the claim's agreement within floating tolerance. -/
theorem linear_eq_barycentric {α : Type} (dtype : VaeDType)
    (encode : α → List ℝ) (img : α) (imgs : List α) (ws : List ℝ) (d : ℕ)
    (hl : (img :: imgs).length = ws.length) (hs : npIsClose ws.sum 1)
    (_hd : ∀ a ∈ img :: imgs, (encode a).length = d) :
    (images_encoding dtype encode (img :: imgs) ws).snd
      = (barycentric_interpolation ((img :: imgs).map encode) ws).map some := by
  cases ws with
  | nil => simp at hl
  | cons w ws =>
    have hl' : (((img :: imgs).map encode)).length = (w :: ws).length := by
      simpa using hl
    rw [images_encoding, if_pos hl, if_pos hs,
      barycentric_interpolation, if_pos hl', if_pos hs]
    simp only [List.map_cons, List.zip_cons_cons, List.foldl_cons,
      List.headI, Except.map]
    rw [linearAccum_cons]
    have hz : addVec (List.replicate (encode img).length 0)
        (scaleVec (encode img) w) = scaleVec (encode img) w := by
      have : (encode img).length = (scaleVec (encode img) w).length := by
        simp [scaleVec]
      rw [this, addVec_zero]
    rw [hz]

/-- Witness for C5 at two concrete latents with weights `[1/2, 1/2]`. -/
theorem linear_eq_barycentric_witness :
    (images_encoding VaeDType.f16 (fun l : List ℝ => l)
        [[(1 : ℝ), 2], [3, 4]] [1 / 2, 1 / 2]).snd
      = (barycentric_interpolation [[(1 : ℝ), 2], [3, 4]] [1 / 2, 1 / 2]).map
          some := by
  have h := linear_eq_barycentric VaeDType.f16 (fun l : List ℝ => l)
    [(1 : ℝ), 2] [[(3 : ℝ), 4]] [1 / 2, 1 / 2] 2 rfl
    (by norm_num [npIsClose])
    (by intro a ha; simp at ha; rcases ha with rfl | rfl <;> rfl)
  simpa using h

/-! ## C4 and C7: shape and value of the RBF blend -/

theorem zip_self_sub_sq_sum (x : List ℝ) :
    ((x.zip x).map (fun p => (p.1 - p.2) ^ 2)).sum = 0 := by
  induction x with
  | nil => simp
  | cons a l ih => simpa using ih

theorem l2dist_self (x : List ℝ) : l2dist x x = 0 := by
  simp [l2dist, zip_self_sub_sq_sum]

theorem gaussian_rbf_zero (eps : ℝ) : gaussian_rbf 0 eps = 1 := by
  norm_num [gaussian_rbf]

theorem kernel_single (eps : ℝ) (x : List ℝ) :
    rowNormalize
        ((cdist [x]).map (fun row => row.map (fun d => gaussian_rbf d eps)))
      = [[1]] := by
  simp [cdist, l2dist_self, gaussian_rbf_zero, rowNormalize]

theorem rbf_single (L : Tensor) (w eps : ℝ) (hs : npIsClose w 1) :
    rbf_interpolation [L] [w] eps
      = Except.ok (Tensor.mk (1 :: L.shape) L.data) := by
  have hs' : npIsClose ([w] : List ℝ).sum 1 := by simpa using hs
  have hl : ([L] : List Tensor).length = ([w] : List ℝ).length := rfl
  rw [rbf_interpolation, if_pos hl, if_pos hs']
  simp only [List.map_cons, List.map_nil, kernel_single]
  have hr : List.range 1 = [0] := by decide
  simp [einsumContract, sumVecs, scaleVec, List.headI, hr]

theorem rbf_shape_cons (L : Tensor) (rest : List Tensor) (ws : List ℝ)
    (eps : ℝ) (hl : (L :: rest).length = ws.length)
    (hs : npIsClose ws.sum 1) :
    (rbf_interpolation (L :: rest) ws eps).isOk = true
    ∧ okShape (rbf_interpolation (L :: rest) ws eps)
        = (L :: rest).length :: L.shape := by
  rw [rbf_interpolation, if_pos hl, if_pos hs]
  refine ⟨rfl, ?_⟩
  simp [okShape, cdist, rowNormalize, List.headI]

/-- C7 (amended): the RBF blend of a single latent `L` reproduces `L`'s
values exactly (the 1-by-1 distance matrix is `[[0]]`, the kernel
row-normalizes to `[[1]]`, and the contraction is the identity on the
data), but the returned tensor is not `L` itself: stacking and the free
einsum index leave an extra leading axis of size 1, so the output shape
is `1 :: L.shape`. -/
theorem rbf_single_latent (L : Tensor) (w eps : ℝ) (hs : npIsClose w 1) :
    cdist [L.data] = [[0]]
    ∧ rowNormalize
        ((cdist [L.data]).map (fun row => row.map (fun d => gaussian_rbf d eps)))
      = [[1]]
    ∧ rbf_interpolation [L] [w] eps
      = Except.ok (Tensor.mk (1 :: L.shape) L.data) :=
  ⟨by simp [cdist, l2dist_self], kernel_single eps L.data, rbf_single L w eps hs⟩

/-- C7 counterexample: on the single latent of shape `[1]` holding `5`,
with weight `1` and epsilon `1`, the RBF blend does not return the input
latent unchanged (the output has shape `[1, 1]`, not `[1]`). -/
theorem rbf_single_latent_cex :
    rbf_interpolation [Tensor.mk [1] [(5 : ℝ)]] [1] 1
      ≠ Except.ok (Tensor.mk [1] [(5 : ℝ)]) := by
  rw [rbf_single (Tensor.mk [1] [(5 : ℝ)]) 1 1 (npIsClose_refl 1)]
  simp

/-- Witness for C7 at a concrete single latent. -/
theorem rbf_single_latent_witness :
    rbf_interpolation [Tensor.mk [1] [(5 : ℝ)]] [1] 1
      = Except.ok (Tensor.mk [1, 1] [(5 : ℝ)]) :=
  (rbf_single_latent (Tensor.mk [1] [(5 : ℝ)]) 1 1 (npIsClose_refl 1)).2.2

/-- C4 (amended): on every valid input of `N >= 1` equal-shaped latents
the RBF blend succeeds, but its output shape is `N` prepended to the
shape `s` of a single latent, not `s` itself: `einsum('ij,i...->j...')`
contracts only the kernel's first index and keeps the second one free,
producing a stack of `N` latent-shaped tensors. -/
theorem rbf_output_shape_stacked (L : Tensor) (rest : List Tensor)
    (ws : List ℝ) (eps : ℝ) (s : List ℕ)
    (hl : (L :: rest).length = ws.length) (hs : npIsClose ws.sum 1)
    (hsh : ∀ T ∈ L :: rest, T.shape = s) :
    (rbf_interpolation (L :: rest) ws eps).isOk = true
    ∧ okShape (rbf_interpolation (L :: rest) ws eps)
        = (L :: rest).length :: s := by
  have h := rbf_shape_cons L rest ws eps hl hs
  rw [hsh L (List.mem_cons_self L rest)] at h
  exact h

/-- C4 counterexample: two equal-shaped latents of shape `[1]` and valid
weights give an RBF output of shape `[2, 1]`, not the single-latent
shape `[1]` the claim requires. -/
theorem rbf_output_shape_cex :
    (rbf_interpolation [Tensor.mk [1] [(0 : ℝ)], Tensor.mk [1] [(1 : ℝ)]]
        [1 / 2, 1 / 2] 1).isOk = true
    ∧ okShape (rbf_interpolation [Tensor.mk [1] [(0 : ℝ)], Tensor.mk [1] [(1 : ℝ)]]
        [1 / 2, 1 / 2] 1) = [2, 1]
    ∧ (Tensor.mk [1] [(0 : ℝ)]).shape = [1] := by
  have h := rbf_shape_cons (Tensor.mk [1] [(0 : ℝ)]) [Tensor.mk [1] [(1 : ℝ)]]
    [1 / 2, 1 / 2] 1 rfl (by norm_num [npIsClose])
  exact ⟨h.1, h.2, rfl⟩

/-! ## C6 and C10: the slerp blend -/

theorem zipWith_eq_left {γ δ : Type} (f : γ → δ → γ) (hf : ∀ a b, f a b = a) :
    ∀ (v0 : List γ) (v1 : List δ), v0.length = v1.length →
      List.zipWith f v0 v1 = v0 := by
  intro v0
  induction v0 with
  | nil => intro v1 _; simp
  | cons a l ih =>
    intro v1 h
    cases v1 with
    | nil => simp at h
    | cons b m => simp [hf, ih m (by simpa using h)]

theorem zipWith_eq_right {γ δ : Type} (f : γ → δ → δ) (hf : ∀ a b, f a b = b) :
    ∀ (v0 : List γ) (v1 : List δ), v0.length = v1.length →
      List.zipWith f v0 v1 = v1 := by
  intro v0
  induction v0 with
  | nil => intro v1 h; cases v1 with | nil => simp | cons b m => simp at h
  | cons a l ih =>
    intro v1 h
    cases v1 with
    | nil => simp at h
    | cons b m => simp [hf, ih m (by simpa using h)]

theorem fiberSlerp_eq_formula (t : ℝ) (r0 r1 : List ℝ)
    (h0 : l2norm r0 ≠ 0) (h1 : l2norm r1 ≠ 0)
    (hsin : Real.sin (Real.arccos (fiberDot r0 r1)) ≠ 0) :
    fiberSlerp t r0 r1
      = some (List.zipWith
          (fun a b =>
            Real.sin ((1 - t) * Real.arccos (fiberDot r0 r1))
                / Real.sin (Real.arccos (fiberDot r0 r1)) * a
              + Real.sin (t * Real.arccos (fiberDot r0 r1))
                / Real.sin (Real.arccos (fiberDot r0 r1)) * b) r0 r1) := by
  rw [fiberSlerp, if_neg (not_or.mpr ⟨h0, h1⟩), if_neg hsin]

theorem fiberSlerp_zero (r0 r1 : List ℝ) (hlen : r0.length = r1.length)
    (h0 : l2norm r0 ≠ 0) (h1 : l2norm r1 ≠ 0)
    (hsin : Real.sin (Real.arccos (fiberDot r0 r1)) ≠ 0) :
    fiberSlerp 0 r0 r1 = some r0 := by
  rw [fiberSlerp_eq_formula 0 r0 r1 h0 h1 hsin]
  refine congrArg some ?_
  have hc : ∀ a b : ℝ,
      Real.sin ((1 - 0) * Real.arccos (fiberDot r0 r1))
          / Real.sin (Real.arccos (fiberDot r0 r1)) * a
        + Real.sin (0 * Real.arccos (fiberDot r0 r1))
          / Real.sin (Real.arccos (fiberDot r0 r1)) * b = a := by
    intro a b
    rw [sub_zero, one_mul, div_self hsin, one_mul, zero_mul, Real.sin_zero,
      zero_div, zero_mul, add_zero]
  exact zipWith_eq_left _ hc r0 r1 hlen

theorem fiberSlerp_one (r0 r1 : List ℝ) (hlen : r0.length = r1.length)
    (h0 : l2norm r0 ≠ 0) (h1 : l2norm r1 ≠ 0)
    (hsin : Real.sin (Real.arccos (fiberDot r0 r1)) ≠ 0) :
    fiberSlerp 1 r0 r1 = some r1 := by
  rw [fiberSlerp_eq_formula 1 r0 r1 h0 h1 hsin]
  refine congrArg some ?_
  have hc : ∀ a b : ℝ,
      Real.sin ((1 - 1) * Real.arccos (fiberDot r0 r1))
          / Real.sin (Real.arccos (fiberDot r0 r1)) * a
        + Real.sin (1 * Real.arccos (fiberDot r0 r1))
          / Real.sin (Real.arccos (fiberDot r0 r1)) * b = b := by
    intro a b
    rw [sub_self, zero_mul, Real.sin_zero, zero_div, zero_mul, one_mul,
      div_self hsin, one_mul, zero_add]
  exact zipWith_eq_right _ hc r0 r1 hlen

theorem slerpFibers_of_pointwise (t : ℝ) (g : List ℝ → List ℝ → List ℝ) :
    ∀ (v0 v1 : List (List ℝ)), v0.length = v1.length →
      (∀ p ∈ v0.zip v1, fiberSlerp t p.1 p.2 = some (g p.1 p.2)) →
      slerpFibers t v0 v1 = some (List.zipWith g v0 v1) := by
  intro v0
  induction v0 with
  | nil =>
    intro v1 h _
    cases v1 with
    | nil => rfl
    | cons b m => simp at h
  | cons r0 v0 ih =>
    intro v1 hlen hp
    cases v1 with
    | nil => simp at hlen
    | cons r1 v1 =>
      have h1 := hp (r0, r1) (by rw [List.zip_cons_cons]; exact List.mem_cons_self _ _)
      have h2 := ih v1 (by simpa using hlen)
        (fun p hpp => hp p (by rw [List.zip_cons_cons]; exact List.mem_cons_of_mem _ hpp))
      rw [slerpFibers, h1, h2]
      simp

theorem slerpLoop_some (rest : List (List (List ℝ) × ℝ)) : ∀ b,
    slerpLoop (some b) rest
      = some (rest.foldl
          (fun acc p => acc.bind (fun a => weighted_slerp p.2 a p.1)) b) := by
  induction rest with
  | nil => intro b; rfl
  | cons p rest ih =>
    intro b
    rw [List.foldl_cons, slerpLoop]
    exact ih _

/-- C6: the slerp blend is exactly the left-to-right fold that starts
with the first latent scaled by its own weight and combines the running
result `r` with each later latent `L` as `weighted_slerp(w, r, L)`; and
`weighted_slerp` (on fibers where the unguarded divisions are sound)
computes the angle from unit-normalized copies of its arguments while
forming the stated sine-ratio combination on the original,
non-normalized arguments. -/
theorem slerp_blend_fold {α : Type} (dtype : VaeDType)
    (encode : α → List (List ℝ)) (img : α) (imgs : List α) (w : ℝ)
    (ws : List ℝ) (hl : (img :: imgs).length = (w :: ws).length)
    (hs : npIsClose (w :: ws).sum 1) :
    (images_encoding_slerp dtype encode (img :: imgs) (w :: ws)).snd
      = Except.ok (some (((imgs.map encode).zip ws).foldl
          (fun acc p => acc.bind (fun a => weighted_slerp p.2 a p.1))
          (some (scaleFibers (encode img) w))))
    ∧ (∀ (t : ℝ) (v0 v1 : List (List ℝ)),
        v0.length = v1.length →
        (∀ p ∈ v0.zip v1, l2norm p.1 ≠ 0 ∧ l2norm p.2 ≠ 0 ∧
          Real.sin (Real.arccos (fiberDot p.1 p.2)) ≠ 0) →
        weighted_slerp t v0 v1 = some (slerpSpecFormula t v0 v1)) := by
  constructor
  · rw [images_encoding_slerp, if_pos hl, if_pos hs]
    simp only [List.map_cons, List.zip_cons_cons]
    have e1 : slerpLoop none ((encode img, w) :: (imgs.map encode).zip ws)
        = slerpLoop (some (some (scaleFibers (encode img) w)))
            ((imgs.map encode).zip ws) := by
      rw [slerpLoop]
    show Except.ok (slerpLoop none ((encode img, w) :: (imgs.map encode).zip ws)) = _
    rw [e1, slerpLoop_some]
  · intro t v0 v1 hlen hp
    rw [weighted_slerp, slerpFibers_of_pointwise t
      (fun r0 r1 => List.zipWith
        (fun a b =>
          Real.sin ((1 - t) * Real.arccos (fiberDot r0 r1))
              / Real.sin (Real.arccos (fiberDot r0 r1)) * a
            + Real.sin (t * Real.arccos (fiberDot r0 r1))
              / Real.sin (Real.arccos (fiberDot r0 r1)) * b) r0 r1)
      v0 v1 hlen
      (fun p hpp => fiberSlerp_eq_formula t p.1 p.2 (hp p hpp).1
        (hp p hpp).2.1 (hp p hpp).2.2)]
    rfl

/-- Witness for C6 at one concrete image and weight vector `[1]`. -/
theorem slerp_blend_fold_witness :
    (images_encoding_slerp VaeDType.f16 (fun v : List (List ℝ) => v)
        [[[(1 : ℝ), 0]]] [1]).snd
      = Except.ok (some (some (scaleFibers [[(1 : ℝ), 0]] 1))) := by
  have h := (slerp_blend_fold VaeDType.f16 (fun v : List (List ℝ) => v)
    [[(1 : ℝ), 0]] [] 1 [] rfl (by norm_num [npIsClose])).1
  simpa using h

/-- C10: on latent pairs whose last-axis fibers are not colinear (every
fiber has nonzero norms and `sin(arccos(dot))` nonzero, so the divisions
are sound), `weighted_slerp` at weight `0` returns `v0` exactly and at
weight `1` returns `v1` exactly. -/
theorem slerp_endpoint_identities (v0 v1 : List (List ℝ))
    (hlen : v0.length = v1.length)
    (hfib : ∀ p ∈ v0.zip v1, p.1.length = p.2.length ∧ l2norm p.1 ≠ 0 ∧
      l2norm p.2 ≠ 0 ∧ Real.sin (Real.arccos (fiberDot p.1 p.2)) ≠ 0) :
    weighted_slerp 0 v0 v1 = some v0 ∧ weighted_slerp 1 v0 v1 = some v1 := by
  constructor
  · rw [weighted_slerp, slerpFibers_of_pointwise 0 (fun r0 _ => r0) v0 v1 hlen
      (fun p hpp => fiberSlerp_zero p.1 p.2 (hfib p hpp).1 (hfib p hpp).2.1
        (hfib p hpp).2.2.1 (hfib p hpp).2.2.2)]
    exact congrArg some (zipWith_eq_left _ (fun a b => rfl) v0 v1 hlen)
  · rw [weighted_slerp, slerpFibers_of_pointwise 1 (fun _ r1 => r1) v0 v1 hlen
      (fun p hpp => fiberSlerp_one p.1 p.2 (hfib p hpp).1 (hfib p hpp).2.1
        (hfib p hpp).2.2.1 (hfib p hpp).2.2.2)]
    exact congrArg some (zipWith_eq_right _ (fun a b => rfl) v0 v1 hlen)

/-- Witness for C10 on the orthogonal fibers `[1, 0]` and `[0, 1]`. -/
theorem slerp_endpoint_identities_witness :
    weighted_slerp 0 [[(1 : ℝ), 0]] [[(0 : ℝ), 1]] = some [[(1 : ℝ), 0]] := by
  have hfib : ∀ p ∈ ([[(1 : ℝ), 0]] : List (List ℝ)).zip [[(0 : ℝ), 1]],
      p.1.length = p.2.length ∧ l2norm p.1 ≠ 0 ∧ l2norm p.2 ≠ 0 ∧
        Real.sin (Real.arccos (fiberDot p.1 p.2)) ≠ 0 := by
    intro p hp
    simp only [List.zip_cons_cons, List.zip_nil_left, List.mem_singleton] at hp
    subst hp
    refine ⟨rfl, ?_, ?_, ?_⟩
    · rw [l2norm_one_zero]; norm_num
    · rw [l2norm_zero_one]; norm_num
    · have hd : fiberDot [(1 : ℝ), 0] [(0 : ℝ), 1] = 0 := by
        simp [fiberDot, l2norm_one_zero, l2norm_zero_one]
      rw [hd, Real.arccos_zero, Real.sin_pi_div_two]
      norm_num
  exact (slerp_endpoint_identities [[(1 : ℝ), 0]] [[(0 : ℝ), 1]] rfl hfib).1

/-- Witness for C4 at two concrete equal-shaped latents. -/
theorem rbf_output_shape_stacked_witness :
    (rbf_interpolation [Tensor.mk [1] [(3 : ℝ)], Tensor.mk [1] [(4 : ℝ)]]
        [1 / 2, 1 / 2] 1).isOk = true
    ∧ okShape (rbf_interpolation [Tensor.mk [1] [(3 : ℝ)], Tensor.mk [1] [(4 : ℝ)]]
        [1 / 2, 1 / 2] 1) = [2, 1] := by
  have h := rbf_output_shape_stacked (Tensor.mk [1] [(3 : ℝ)])
    [Tensor.mk [1] [(4 : ℝ)]] [1 / 2, 1 / 2] 1 [1] rfl
    (by norm_num [npIsClose])
    (by intro T hT; simp at hT; rcases hT with rfl | rfl <;> rfl)
  simpa using h

end

end StyleAligned
